import Mathlib

/-!
Shallow embedding of the songwrite lyric analyzer (src/script.js):
word normalization, syllable counting, rime extraction, rhyme/near-rhyme
classification and the section-aware grouping engine, together with
theorems settling the specification claims.
Strings are modelled as `List Char`.
-/

namespace Songwrite

/-- JavaScript whitespace characters (the common ASCII ones matched by \s). -/
def isWS (c : Char) : Bool :=
  c = ' ' || c = '\t' || c = '\n' || c = '\r' || c = Char.ofNat 11 || c = Char.ofNat 12

/-- Model of JavaScript String.prototype.trim. -/
def trim (s : List Char) : List Char :=
  ((s.dropWhile isWS).reverse.dropWhile isWS).reverse

/-- The characters a-z. -/
def isLowerAlpha (c : Char) : Bool := decide ('a' ≤ c) && decide (c ≤ 'z')

/-- Model of JavaScript toLowerCase (ASCII range, which is all the code relies on). -/
def toLowerStr (s : List Char) : List Char := s.map Char.toLower

/-- `normalizeWord` from script.js: lowercase, then remove every character
outside a-z (the empty-input guard in the source coincides with the general
path on the empty string). -/
def normalizeWord (rawWord : List Char) : List Char :=
  (toLowerStr rawWord).filter isLowerAlpha

/-- The punctuation set stripped by `getLastWord`: .,!?;:"'()[]\x7b\x7d -/
def punctChar (c : Char) : Bool :=
  c = '.' || c = ',' || c = '!' || c = '?' || c = ';' || c = ':' ||
  c = Char.ofNat 34 || c = Char.ofNat 39 || c = '(' || c = ')' ||
  c = '[' || c = ']' || c = Char.ofNat 123 || c = Char.ofNat 125

def stripPunct (s : List Char) : List Char := s.filter (fun c => !punctChar c)

/-- Model of JavaScript `str.split(/\s+/)`: split at maximal whitespace runs,
keeping the (possibly empty) segments before the first run and after the
last run, mirroring the empty-string artifacts of the JS split. -/
def jsSplitWS : List Char → List (List Char)
  | [] => [[]]
  | c :: rest =>
    if isWS c then
      match rest with
      | [] => [] :: jsSplitWS rest
      | d :: _ => if isWS d then jsSplitWS rest else [] :: jsSplitWS rest
    else
      match jsSplitWS rest with
      | [] => [[c]]
      | t :: ts => (c :: t) :: ts

/-- `getLastWord` from script.js: trim; if empty return empty; otherwise strip
punctuation, split on whitespace, take the final entry, lowercase it. -/
def getLastWord (line : List Char) : List Char :=
  if trim line = [] then []
  else toLowerStr ((jsSplitWS (stripPunct (trim line))).getLastD [])

/-- The vowel letters used throughout script.js. -/
def isVowel (c : Char) : Bool :=
  c = 'a' || c = 'e' || c = 'i' || c = 'o' || c = 'u' || c = 'y'

/-- The OWN keys of the special-case object literal of `countSyllables`;
0 plays the role of the falsy `undefined` of an own-property miss.  The
source's object literal additionally inherits the properties of
Object.prototype; that part of the lookup is modelled separately by
`countSyllablesJS`, because the only inherited value it can produce is a
function, not a number. -/
def specialCase (w : List Char) : Nat :=
  if w = "the".toList then 1
  else if w = "a".toList then 1
  else if w = "i".toList then 1
  else if w = "are".toList then 1
  else if w = "fire".toList then 2
  else if w = "hour".toList then 2
  else if w = "our".toList then 2
  else if w = "every".toList then 3
  else if w = "being".toList then 2
  else if w = "quiet".toList then 2
  else if w = "poem".toList then 2
  else 0

/-- Left-to-right count of maximal vowel runs, tracking whether the previous
character was a vowel, as in the loop of `countSyllables`. -/
def countVG : List Char → Bool → Nat
  | [], _ => 0
  | c :: rest, prevV =>
    (if isVowel c && !prevV then 1 else 0) + countVG rest (isVowel c)

/-- The heuristic part of `countSyllables`: vowel-group count, silent-e
adjustment, trailing-"le" adjustment, floored at 1. -/
def syllableHeuristic (w : List Char) : Nat :=
  let c1 := countVG w false
  let c2 := if ['e'].isSuffixOf w ∧ 1 < c1 then c1 - 1 else c1
  let c3 :=
    if 2 < w.length ∧ ['l', 'e'].isSuffixOf w ∧
        isVowel (w.getD (w.length - 3) ' ') = false
    then c2 + 1 else c2
  max 1 c3

/-- `countSyllables` from script.js, reading the exception-table access as
the intended own-property lookup (numbers only).  The source's lookup
`specialCases[word]` also traverses the prototype chain of the object
literal, which makes the normalized word "constructor" return the inherited
function `Object.prototype.constructor` instead of a number; the faithful
variant `countSyllablesJS` models that, and the discrepancy is settled as a
code bug in C7 below. -/
def countSyllables (word : List Char) : Nat :=
  if trim (toLowerStr word) = [] then 0
  else if (trim (toLowerStr word)).filter isLowerAlpha = [] then 0
  else if specialCase ((trim (toLowerStr word)).filter isLowerAlpha) ≠ 0 then
    specialCase ((trim (toLowerStr word)).filter isLowerAlpha)
  else syllableHeuristic ((trim (toLowerStr word)).filter isLowerAlpha)

/-- A JavaScript value that `countSyllables` in the source can return:
a number, or — through the prototype chain of the object literal
`specialCases` — the inherited function object Object.prototype.constructor. -/
inductive JsNumOrFunction where
  | num : Nat → JsNumOrFunction
  | protoConstructorFn : JsNumOrFunction
deriving DecidableEq

/-- Faithful model of `countSyllables` including the prototype chain of the
object literal: `specialCases[word]` finds, besides the eleven own keys, the
inherited properties of Object.prototype.  A normalized word consists only
of lowercase letters a-z, and of Object.prototype's property names exactly
"constructor" is such a string (the others, such as "toString", "valueOf",
"hasOwnProperty" or "__proto__", contain uppercase letters or underscores),
so "constructor" is the unique normalized input on which the truthiness
test `if (specialCases[word])` fires with the inherited function value and
the source returns that function instead of a number. -/
def countSyllablesJS (word : List Char) : JsNumOrFunction :=
  if trim (toLowerStr word) = [] then JsNumOrFunction.num 0
  else if (trim (toLowerStr word)).filter isLowerAlpha = [] then JsNumOrFunction.num 0
  else if specialCase ((trim (toLowerStr word)).filter isLowerAlpha) ≠ 0 then
    JsNumOrFunction.num (specialCase ((trim (toLowerStr word)).filter isLowerAlpha))
  else if (trim (toLowerStr word)).filter isLowerAlpha = "constructor".toList then
    JsNumOrFunction.protoConstructorFn
  else JsNumOrFunction.num (syllableHeuristic
    ((trim (toLowerStr word)).filter isLowerAlpha))

/-- `countLineSyllables` from script.js: split the raw line on whitespace and
sum `countSyllables` over the entries whose trim is non-empty (numeric
reading; on a line containing the word "constructor" the source instead
degenerates through the prototype-chain slip recorded at `countSyllablesJS`). -/
def countLineSyllables (line : List Char) : Nat :=
  if trim line = [] then 0
  else ((jsSplitWS line).map (fun w => if trim w = [] then 0 else countSyllables w)).sum

structure RimeParts where
  vowelCluster : List Char
  coda : List Char
  rime : List Char
  ending : List Char
deriving DecidableEq

/-- `slice(-3)` of a normalized word. -/
def lastThree (n : List Char) : List Char := n.drop (n.length - 3)

/-- The first while loop of `getRimeParts`, walking from the end of the
word: the trailing consonant run, collected in reverse. -/
def rimeCodaR (n : List Char) : List Char :=
  n.reverse.takeWhile (fun c => !isVowel c)

/-- The second while loop of `getRimeParts`: the vowel run immediately
before the trailing consonants, collected in reverse. -/
def rimeClusterR (n : List Char) : List Char :=
  (n.reverse.dropWhile (fun c => !isVowel c)).takeWhile isVowel

/-- `getRimeParts` from script.js: walk from the end collecting the trailing
consonant run, then the vowel cluster before it; if no vowel cluster exists
the rime fields are all empty and only `ending` is kept. -/
def getRimeParts (rawWord : List Char) : RimeParts :=
  if normalizeWord rawWord = [] then ⟨[], [], [], []⟩
  else if rimeClusterR (normalizeWord rawWord) = [] then
    ⟨[], [], [], lastThree (normalizeWord rawWord)⟩
  else
    ⟨(rimeClusterR (normalizeWord rawWord)).reverse,
     (rimeCodaR (normalizeWord rawWord)).reverse,
     (rimeClusterR (normalizeWord rawWord)).reverse ++
       (rimeCodaR (normalizeWord rawWord)).reverse,
     lastThree (normalizeWord rawWord)⟩

structure PhoneticPattern where
  vowelSound : List Char
  consonantEnding : List Char
  exactEnding : List Char
deriving DecidableEq

/-- `getPhoneticPattern` from script.js. -/
def getPhoneticPattern (w : List Char) : PhoneticPattern :=
  let parts := getRimeParts w
  ⟨parts.vowelCluster.map Char.toUpper, parts.coda, parts.ending⟩

/-- `isRhyme` from script.js; `first`/`second` of the source are written
out as `normalizeWord word1`/`normalizeWord word2`. -/
def isRhyme (word1 word2 : List Char) : Bool :=
  if normalizeWord word1 = [] ∨ normalizeWord word2 = [] ∨
      normalizeWord word1 = normalizeWord word2 then false
  else if (getRimeParts (normalizeWord word1)).vowelCluster = [] ∨
      (getRimeParts (normalizeWord word2)).vowelCluster = [] then false
  else if (getRimeParts (normalizeWord word1)).rime =
      (getRimeParts (normalizeWord word2)).rime then true
  else if (getRimeParts (normalizeWord word1)).ending =
      (getRimeParts (normalizeWord word2)).ending ∧
      2 ≤ (getRimeParts (normalizeWord word1)).ending.length then true
  else false

/-- `isNearRhyme` from script.js; `pattern1`/`pattern2` of the source are
written out as `getPhoneticPattern (normalizeWord ...)`. -/
def isNearRhyme (word1 word2 : List Char) : Bool :=
  if normalizeWord word1 = [] ∨ normalizeWord word2 = [] ∨
      normalizeWord word1 = normalizeWord word2 then false
  else if isRhyme word1 word2 then false
  else if (getPhoneticPattern (normalizeWord word1)).vowelSound ≠ [] ∧
      (getPhoneticPattern (normalizeWord word1)).vowelSound =
        (getPhoneticPattern (normalizeWord word2)).vowelSound ∧
      (getPhoneticPattern (normalizeWord word1)).consonantEnding ≠
        (getPhoneticPattern (normalizeWord word2)).consonantEnding then true
  else if (getPhoneticPattern (normalizeWord word1)).consonantEnding ≠ [] ∧
      (getPhoneticPattern (normalizeWord word1)).consonantEnding =
        (getPhoneticPattern (normalizeWord word2)).consonantEnding ∧
      (getPhoneticPattern (normalizeWord word1)).vowelSound ≠
        (getPhoneticPattern (normalizeWord word2)).vowelSound then true
  else false

/-- The reserved section-break marker. -/
def BREAK : List Char := "---".toList

/-- Model of JavaScript `buf.split("\n")`: every newline separates, with no
run collapsing, and the empty buffer yields one empty line. -/
def splitNL : List Char → List (List Char)
  | [] => [[]]
  | c :: rest =>
    if c = '\n' then [] :: splitNL rest
    else
      match splitNL rest with
      | [] => [[c]]
      | t :: ts => (c :: t) :: ts

/-- Lines skipped by the grouping loop: blank lines and break markers. -/
def isSkip (line : List Char) : Bool :=
  decide (trim line = []) || decide (trim line = BREAK)

/-- Indices whose trimmed text is exactly the break marker. -/
def breakPositions (lines : List (List Char)) : List Nat :=
  (List.range lines.length).filter (fun i => decide (trim (lines.getD i []) = BREAK))

/-- `inSameSection` from script.js, parametrized by the break positions. -/
def inSameSection (breaks : List Nat) (i j : Nat) : Bool :=
  breaks.all (fun b => !(decide ((i < b ∧ b ≤ j) ∨ (j < b ∧ b ≤ i))))

/-- The inner scan of the rhyme-group pass: all j > i that are content lines
in the same section whose last word rhymes with line i's last word. -/
def rhymeScan (lines lastWords : List (List Char)) (breaks : List Nat) (i : Nat) :
    List Nat :=
  (List.range lines.length).filter (fun j =>
    decide (i < j) && !isSkip (lines.getD j []) && inSameSection breaks i j &&
      isRhyme (lastWords.getD i []) (lastWords.getD j []))

/-- The inner scan of the near-rhyme pass. -/
def nearScan (lines lastWords : List (List Char)) (breaks : List Nat) (i : Nat) :
    List Nat :=
  (List.range lines.length).filter (fun j =>
    decide (i < j) && !isSkip (lines.getD j []) && inSameSection breaks i j &&
      isNearRhyme (lastWords.getD i []) (lastWords.getD j []))

structure GState where
  rhymeGroups : List (List Nat)
  nearRhymeGroups : List (List Nat)
deriving DecidableEq

/-- One iteration of the grouping loop of `updateEditor`.  Note that, as in
the source, `inRG` is computed before the candidate rhyme group is pushed,
and the near-rhyme pass reuses that stale value. -/
def stepGroups (lines lastWords : List (List Char)) (breaks : List Nat)
    (st : GState) (i : Nat) : GState :=
  if isSkip (lines.getD i []) then st
  else
    ⟨if st.rhymeGroups.any (fun g => g.contains i) then st.rhymeGroups
      else if 1 < (i :: rhymeScan lines lastWords breaks i).length then
        st.rhymeGroups ++ [i :: rhymeScan lines lastWords breaks i]
      else st.rhymeGroups,
     if !(st.nearRhymeGroups.any (fun g => g.contains i)) &&
        !(st.rhymeGroups.any (fun g => g.contains i)) then
       if 1 < (i :: nearScan lines lastWords breaks i).length then
         st.nearRhymeGroups ++ [i :: nearScan lines lastWords breaks i]
       else st.nearRhymeGroups
     else st.nearRhymeGroups⟩

/-- The grouping pass of `updateEditor` on a list of lines. -/
def buildGroups (lines : List (List Char)) : GState :=
  (List.range lines.length).foldl
    (stepGroups lines (lines.map getLastWord) (breakPositions lines)) ⟨[], []⟩

inductive GroupKind where
  | rhyme : GroupKind
  | nearRhyme : GroupKind
deriving DecidableEq

/-- The per-line rhyme-indicator annotation rendered by `updateEditor`:
none for blank and break lines; otherwise the first rhyme group containing
the line (colored by its index mod 30), else the first near-rhyme group. -/
def groupAnnotation (lines : List (List Char)) (i : Nat) :
    Option (GroupKind × Nat) :=
  if isSkip (lines.getD i []) then none
  else
    match (buildGroups lines).rhymeGroups.findIdx? (fun g => g.contains i) with
    | some k => some (GroupKind.rhyme, k % 30)
    | none =>
      match (buildGroups lines).nearRhymeGroups.findIdx? (fun g => g.contains i) with
      | some k => some (GroupKind.nearRhyme, k % 30)
      | none => none

/-- The per-line syllable annotation rendered by `updateEditor`: none for
break-marker and blank lines, otherwise the line's syllable count. -/
def syllableAnnotation (line : List Char) : Option Nat :=
  if trim line = BREAK then none
  else if trim line = [] then none
  else some (countLineSyllables line)

/-- No line index occurs in two distinct groups of the combined output. -/
def pairwiseDisjoint (st : GState) : Prop :=
  (st.rhymeGroups ++ st.nearRhymeGroups).Pairwise (fun g1 g2 => ∀ i ∈ g1, i ∉ g2)

instance (st : GState) : Decidable (pairwiseDisjoint st) := by
  unfold pairwiseDisjoint; infer_instance

/-- The anchors (first members) of a list of groups. -/
def anchors (gs : List (List Nat)) : List Nat := gs.map (fun g => g.headD 0)

/-- A well-formed group as produced by the scan: an anchor followed by
strictly larger indices that share its section. -/
def groupWF (breaks : List Nat) (g : List Nat) : Prop :=
  ∃ a t, g = a :: t ∧ ∀ j ∈ t, a < j ∧ inSameSection breaks a j = true

/-- Loop invariant of the grouping pass. -/
def StInv (breaks : List Nat) (i : Nat) (st : GState) : Prop :=
  (anchors st.rhymeGroups).Pairwise (· < ·) ∧
  (∀ h ∈ anchors st.rhymeGroups, h < i) ∧
  (anchors st.nearRhymeGroups).Pairwise (· < ·) ∧
  (∀ h ∈ anchors st.nearRhymeGroups, h < i) ∧
  (∀ g ∈ st.rhymeGroups, groupWF breaks g) ∧
  (∀ g ∈ st.nearRhymeGroups, groupWF breaks g)

end Songwrite

namespace Songwrite

section HelperLemmas

lemma wsChar_cases {c : Char} (h : isWS c = true) :
    c = ' ' ∨ c = '\t' ∨ c = '\n' ∨ c = '\r' ∨ c = Char.ofNat 11 ∨ c = Char.ofNat 12 := by
  have h' := h
  simp only [isWS, Bool.or_eq_true, decide_eq_true_eq] at h'
  tauto

lemma ws_not_lower {c : Char} (h : isWS c = true) : isLowerAlpha c = false := by
  rcases wsChar_cases h with h | h | h | h | h | h <;> subst h <;> decide

lemma filter_dropWhile_ws (p : Char → Bool) (hp : ∀ c, isWS c = true → p c = false)
    (l : List Char) : (l.dropWhile isWS).filter p = l.filter p := by
  induction l with
  | nil => rfl
  | cons c rest ih =>
    by_cases hc : isWS c
    · rw [List.dropWhile_cons_of_pos hc, ih, List.filter_cons_of_neg]
      simp [hp c hc]
    · rw [List.dropWhile_cons_of_neg hc]

lemma filter_trim (p : Char → Bool) (hp : ∀ c, isWS c = true → p c = false)
    (l : List Char) : (trim l).filter p = l.filter p := by
  unfold trim
  rw [List.filter_reverse, filter_dropWhile_ws p hp, List.filter_reverse,
    List.reverse_reverse, filter_dropWhile_ws p hp]

lemma normalize_eq_filter_trim (w : List Char) :
    (trim (toLowerStr w)).filter isLowerAlpha = normalizeWord w :=
  filter_trim isLowerAlpha (fun _ h => ws_not_lower h) (toLowerStr w)

lemma toLower_of_lowerAlpha {c : Char} (h : isLowerAlpha c = true) :
    Char.toLower c = c := by
  have h1 : 'a' ≤ c ∧ c ≤ 'z' := by
    simpa [isLowerAlpha, Bool.and_eq_true, decide_eq_true_eq] using h
  have h97 : (97 : Nat) ≤ Char.toNat c := by
    have hh := h1.1
    rw [Char.le_def, UInt32.le_def, BitVec.le_def] at hh
    exact hh
  show (if 65 ≤ Char.toNat c ∧ Char.toNat c ≤ 90 then Char.ofNat (Char.toNat c + 32)
    else c) = c
  rw [if_neg]
  omega

lemma normalizeWord_idem (w : List Char) :
    normalizeWord (normalizeWord w) = normalizeWord w := by
  unfold normalizeWord toLowerStr
  have hmap : List.map Char.toLower ((List.map Char.toLower w).filter isLowerAlpha) =
      (List.map Char.toLower w).filter isLowerAlpha := by
    have hpt : ∀ a ∈ (List.map Char.toLower w).filter isLowerAlpha,
        Char.toLower a = id a :=
      fun a ha => toLower_of_lowerAlpha (List.mem_filter.mp ha).2
    rw [List.map_congr_left hpt, List.map_id]
  rw [hmap]
  exact List.filter_eq_self.mpr (fun a ha => (List.mem_filter.mp ha).2)

lemma getRimeParts_normalize (w : List Char) :
    getRimeParts (normalizeWord w) = getRimeParts w := by
  unfold getRimeParts
  rw [normalizeWord_idem]

lemma isRhyme_eq_true_iff (a b : List Char) :
    isRhyme a b = true ↔
      (normalizeWord a ≠ [] ∧ normalizeWord b ≠ [] ∧
       normalizeWord a ≠ normalizeWord b ∧
       (getRimeParts (normalizeWord a)).vowelCluster ≠ [] ∧
       (getRimeParts (normalizeWord b)).vowelCluster ≠ [] ∧
       ((getRimeParts (normalizeWord a)).rime = (getRimeParts (normalizeWord b)).rime ∨
        ((getRimeParts (normalizeWord a)).ending =
            (getRimeParts (normalizeWord b)).ending ∧
         2 ≤ (getRimeParts (normalizeWord a)).ending.length))) := by
  unfold isRhyme
  split_ifs with h1 h2 h3 h4
  · simp only [Bool.false_eq_true, false_iff]
    rintro ⟨ha, hb, hab, -⟩
    tauto
  · simp only [Bool.false_eq_true, false_iff]
    rintro ⟨-, -, -, hca, hcb, -⟩
    tauto
  · constructor
    · intro _
      push_neg at h1 h2
      exact ⟨h1.1, h1.2.1, h1.2.2, h2.1, h2.2, Or.inl h3⟩
    · intro _
      rfl
  · constructor
    · intro _
      push_neg at h1 h2
      exact ⟨h1.1, h1.2.1, h1.2.2, h2.1, h2.2, Or.inr h4⟩
    · intro _
      rfl
  · simp only [Bool.false_eq_true, false_iff]
    rintro ⟨-, -, -, -, -, h6 | h6⟩
    · exact h3 h6
    · exact h4 h6

lemma isRhyme_true_symm (a b : List Char) (h : isRhyme a b = true) :
    isRhyme b a = true := by
  rw [isRhyme_eq_true_iff] at h ⊢
  obtain ⟨h1, h2, h3, h4, h5, h6⟩ := h
  refine ⟨h2, h1, fun he => h3 he.symm, h5, h4, ?_⟩
  rcases h6 with h6 | ⟨he, hl⟩
  · exact Or.inl h6.symm
  · exact Or.inr ⟨he.symm, he ▸ hl⟩

lemma isRhyme_symm (a b : List Char) : isRhyme a b = isRhyme b a := by
  by_cases h : isRhyme a b = true
  · rw [h, isRhyme_true_symm a b h]
  · by_cases h' : isRhyme b a = true
    · exact absurd (isRhyme_true_symm b a h') h
    · rw [Bool.not_eq_true] at h h'
      rw [h, h']

lemma isNearRhyme_eq_true_iff (a b : List Char) :
    isNearRhyme a b = true ↔
      (normalizeWord a ≠ [] ∧ normalizeWord b ≠ [] ∧
       normalizeWord a ≠ normalizeWord b ∧
       isRhyme a b = false ∧
       (((getPhoneticPattern (normalizeWord a)).vowelSound ≠ [] ∧
         (getPhoneticPattern (normalizeWord a)).vowelSound =
           (getPhoneticPattern (normalizeWord b)).vowelSound ∧
         (getPhoneticPattern (normalizeWord a)).consonantEnding ≠
           (getPhoneticPattern (normalizeWord b)).consonantEnding) ∨
        ((getPhoneticPattern (normalizeWord a)).consonantEnding ≠ [] ∧
         (getPhoneticPattern (normalizeWord a)).consonantEnding =
           (getPhoneticPattern (normalizeWord b)).consonantEnding ∧
         (getPhoneticPattern (normalizeWord a)).vowelSound ≠
           (getPhoneticPattern (normalizeWord b)).vowelSound))) := by
  unfold isNearRhyme
  split_ifs with h1 h2 h3 h4
  · simp only [Bool.false_eq_true, false_iff]
    rintro ⟨ha, hb, hab, -⟩
    tauto
  · simp only [Bool.false_eq_true, false_iff]
    rintro ⟨-, -, -, hrf, -⟩
    rw [h2] at hrf
    exact absurd hrf (by simp)
  · rw [Bool.not_eq_true] at h2
    constructor
    · intro _
      push_neg at h1
      exact ⟨h1.1, h1.2.1, h1.2.2, h2, Or.inl h3⟩
    · intro _
      rfl
  · rw [Bool.not_eq_true] at h2
    constructor
    · intro _
      push_neg at h1
      exact ⟨h1.1, h1.2.1, h1.2.2, h2, Or.inr h4⟩
    · intro _
      rfl
  · simp only [Bool.false_eq_true, false_iff]
    rintro ⟨-, -, -, -, h5 | h5⟩
    · exact h3 h5
    · exact h4 h5

lemma isNearRhyme_true_symm (a b : List Char) (h : isNearRhyme a b = true) :
    isNearRhyme b a = true := by
  rw [isNearRhyme_eq_true_iff] at h ⊢
  obtain ⟨h1, h2, h3, h4, h5⟩ := h
  refine ⟨h2, h1, fun he => h3 he.symm, by rw [← isRhyme_symm]; exact h4, ?_⟩
  rcases h5 with ⟨hv, hveq, hce⟩ | ⟨hc, hceq, hve⟩
  · exact Or.inl ⟨hveq ▸ hv, hveq.symm, fun he => hce he.symm⟩
  · exact Or.inr ⟨hceq ▸ hc, hceq.symm, fun he => hve he.symm⟩

lemma isNearRhyme_symm (a b : List Char) : isNearRhyme a b = isNearRhyme b a := by
  by_cases h : isNearRhyme a b = true
  · rw [h, isNearRhyme_true_symm a b h]
  · by_cases h' : isNearRhyme b a = true
    · exact absurd (isNearRhyme_true_symm b a h') h
    · rw [Bool.not_eq_true] at h h'
      rw [h, h']

lemma mem_rhymeScan {lines lastWords : List (List Char)} {breaks : List Nat}
    {i j : Nat} (h : j ∈ rhymeScan lines lastWords breaks i) :
    i < j ∧ inSameSection breaks i j = true := by
  unfold rhymeScan at h
  rw [List.mem_filter] at h
  have hh := h.2
  simp only [Bool.and_eq_true, decide_eq_true_eq] at hh
  exact ⟨hh.1.1.1, hh.1.2⟩

lemma mem_nearScan {lines lastWords : List (List Char)} {breaks : List Nat}
    {i j : Nat} (h : j ∈ nearScan lines lastWords breaks i) :
    i < j ∧ inSameSection breaks i j = true := by
  unfold nearScan at h
  rw [List.mem_filter] at h
  have hh := h.2
  simp only [Bool.and_eq_true, decide_eq_true_eq] at hh
  exact ⟨hh.1.1.1, hh.1.2⟩

lemma anchors_bump {gs : List (List Nat)} {i : Nat}
    (hb : ∀ h ∈ anchors gs, h < i) : ∀ h ∈ anchors gs, h < i + 1 :=
  fun h hh => Nat.lt_succ_of_lt (hb h hh)

lemma append_group_inv {breaks : List Nat} {gs : List (List Nat)} {i : Nat}
    {g : List Nat} (hp : (anchors gs).Pairwise (· < ·))
    (hb : ∀ h ∈ anchors gs, h < i) (hwf : ∀ x ∈ gs, groupWF breaks x)
    (hg : groupWF breaks g) (hhead : g.headD 0 = i) :
    (anchors (gs ++ [g])).Pairwise (· < ·) ∧
    (∀ h ∈ anchors (gs ++ [g]), h < i + 1) ∧
    (∀ x ∈ gs ++ [g], groupWF breaks x) := by
  have hanch : anchors (gs ++ [g]) = anchors gs ++ [i] := by
    unfold anchors
    rw [List.map_append, List.map_cons, List.map_nil, hhead]
  refine ⟨?_, ?_, ?_⟩
  · rw [hanch, List.pairwise_append]
    refine ⟨hp, List.pairwise_singleton _ _, ?_⟩
    intro x hx y hy
    rw [List.mem_singleton] at hy
    subst hy
    exact hb x hx
  · rw [hanch]
    intro h hh
    rw [List.mem_append, List.mem_singleton] at hh
    rcases hh with hh | rfl
    · exact Nat.lt_succ_of_lt (hb h hh)
    · exact Nat.lt_succ_self h
  · intro x hx
    rw [List.mem_append, List.mem_singleton] at hx
    rcases hx with hx | rfl
    · exact hwf x hx
    · exact hg

lemma stepGroups_inv (lines lastWords : List (List Char)) (breaks : List Nat)
    (st : GState) (i : Nat) (h : StInv breaks i st) :
    StInv breaks (i + 1) (stepGroups lines lastWords breaks st i) := by
  obtain ⟨hp1, hb1, hp2, hb2, hw1, hw2⟩ := h
  unfold stepGroups
  by_cases hs : isSkip (lines.getD i []) = true
  · rw [if_pos hs]
    exact ⟨hp1, anchors_bump hb1, hp2, anchors_bump hb2, hw1, hw2⟩
  · rw [if_neg hs]
    have hrhyme :
        (anchors (if st.rhymeGroups.any (fun g => g.contains i) then st.rhymeGroups
          else if 1 < (i :: rhymeScan lines lastWords breaks i).length then
            st.rhymeGroups ++ [i :: rhymeScan lines lastWords breaks i]
          else st.rhymeGroups)).Pairwise (· < ·) ∧
        (∀ h ∈ anchors (if st.rhymeGroups.any (fun g => g.contains i) then
            st.rhymeGroups
          else if 1 < (i :: rhymeScan lines lastWords breaks i).length then
            st.rhymeGroups ++ [i :: rhymeScan lines lastWords breaks i]
          else st.rhymeGroups), h < i + 1) ∧
        (∀ x ∈ (if st.rhymeGroups.any (fun g => g.contains i) then st.rhymeGroups
          else if 1 < (i :: rhymeScan lines lastWords breaks i).length then
            st.rhymeGroups ++ [i :: rhymeScan lines lastWords breaks i]
          else st.rhymeGroups), groupWF breaks x) := by
      by_cases hR : st.rhymeGroups.any (fun g => g.contains i) = true
      · rw [if_pos hR]
        exact ⟨hp1, anchors_bump hb1, hw1⟩
      · rw [if_neg hR]
        by_cases hL : 1 < (i :: rhymeScan lines lastWords breaks i).length
        · rw [if_pos hL]
          exact append_group_inv hp1 hb1 hw1
            ⟨i, rhymeScan lines lastWords breaks i, rfl,
              fun j hj => mem_rhymeScan hj⟩ rfl
        · rw [if_neg hL]
          exact ⟨hp1, anchors_bump hb1, hw1⟩
    have hnear :
        (anchors (if !(st.nearRhymeGroups.any (fun g => g.contains i)) &&
            !(st.rhymeGroups.any (fun g => g.contains i)) then
          if 1 < (i :: nearScan lines lastWords breaks i).length then
            st.nearRhymeGroups ++ [i :: nearScan lines lastWords breaks i]
          else st.nearRhymeGroups
        else st.nearRhymeGroups)).Pairwise (· < ·) ∧
        (∀ h ∈ anchors (if !(st.nearRhymeGroups.any (fun g => g.contains i)) &&
            !(st.rhymeGroups.any (fun g => g.contains i)) then
          if 1 < (i :: nearScan lines lastWords breaks i).length then
            st.nearRhymeGroups ++ [i :: nearScan lines lastWords breaks i]
          else st.nearRhymeGroups
        else st.nearRhymeGroups), h < i + 1) ∧
        (∀ x ∈ (if !(st.nearRhymeGroups.any (fun g => g.contains i)) &&
            !(st.rhymeGroups.any (fun g => g.contains i)) then
          if 1 < (i :: nearScan lines lastWords breaks i).length then
            st.nearRhymeGroups ++ [i :: nearScan lines lastWords breaks i]
          else st.nearRhymeGroups
        else st.nearRhymeGroups), groupWF breaks x) := by
      by_cases hN : (!(st.nearRhymeGroups.any (fun g => g.contains i)) &&
          !(st.rhymeGroups.any (fun g => g.contains i))) = true
      · rw [if_pos hN]
        by_cases hL : 1 < (i :: nearScan lines lastWords breaks i).length
        · rw [if_pos hL]
          exact append_group_inv hp2 hb2 hw2
            ⟨i, nearScan lines lastWords breaks i, rfl,
              fun j hj => mem_nearScan hj⟩ rfl
        · rw [if_neg hL]
          exact ⟨hp2, anchors_bump hb2, hw2⟩
      · rw [if_neg hN]
        exact ⟨hp2, anchors_bump hb2, hw2⟩
    exact ⟨hrhyme.1, hrhyme.2.1, hnear.1, hnear.2.1, hrhyme.2.2, hnear.2.2⟩

lemma buildGroups_inv (lines : List (List Char)) :
    StInv (breakPositions lines) lines.length (buildGroups lines) := by
  unfold buildGroups
  have hgen : ∀ n : Nat, StInv (breakPositions lines) n
      ((List.range n).foldl
        (stepGroups lines (lines.map getLastWord) (breakPositions lines)) ⟨[], []⟩) := by
    intro n
    induction n with
    | zero =>
      exact ⟨List.Pairwise.nil, by simp [anchors], List.Pairwise.nil,
        by simp [anchors], by simp, by simp⟩
    | succ n ih =>
      rw [List.range_succ, List.foldl_append, List.foldl_cons, List.foldl_nil]
      exact stepGroups_inv _ _ _ _ _ ih
  exact hgen lines.length

lemma inSameSection_true_elim {breaks : List Nat} {i j b : Nat}
    (h : inSameSection breaks i j = true) (hb : b ∈ breaks) :
    ¬((i < b ∧ b ≤ j) ∨ (j < b ∧ b ≤ i)) := by
  unfold inSameSection at h
  rw [List.all_eq_true] at h
  have hh := h b hb
  simp only [Bool.not_eq_true', decide_eq_false_iff_not] at hh
  exact hh

lemma groupWF_no_break_between {breaks : List Nat} {g : List Nat} {x y b : Nat}
    (hWF : groupWF breaks g) (hx : x ∈ g) (hy : y ∈ g) (hb : b ∈ breaks) :
    ¬(x < b ∧ b < y) := by
  obtain ⟨a, t, rfl, hT⟩ := hWF
  rw [List.mem_cons] at hx hy
  rintro ⟨hxb, hby⟩
  rcases hx with rfl | hx <;> rcases hy with rfl | hy
  · omega
  · have h1 := inSameSection_true_elim (hT y hy).2 hb
    have h2 := (hT y hy).1
    omega
  · have h1 := inSameSection_true_elim (hT x hx).2 hb
    have h2 := (hT x hx).1
    omega
  · have h1 := inSameSection_true_elim (hT x hx).2 hb
    have h2 := inSameSection_true_elim (hT y hy).2 hb
    have h3 := (hT x hx).1
    have h4 := (hT y hy).1
    omega

lemma foldl_stepGroups_skip (lines lastWords : List (List Char)) (breaks : List Nat)
    (idxs : List Nat) (st : GState)
    (h : ∀ i ∈ idxs, isSkip (lines.getD i []) = true) :
    idxs.foldl (stepGroups lines lastWords breaks) st = st := by
  induction idxs generalizing st with
  | nil => rfl
  | cons i rest ih =>
    rw [List.foldl_cons]
    have hi : isSkip (lines.getD i []) = true := h i (List.mem_cons_self i rest)
    have hstep : stepGroups lines lastWords breaks st i = st := by
      unfold stepGroups
      rw [if_pos hi]
    rw [hstep]
    exact ih _ (fun j hj => h j (List.mem_cons_of_mem _ hj))

lemma takeWhile_eq_nil_of_all_false {p : Char → Bool} {l : List Char}
    (h : ∀ x ∈ l, p x = false) : l.takeWhile p = [] := by
  cases l with
  | nil => rfl
  | cons a l =>
    exact List.takeWhile_cons_of_neg (by simp [h a (List.mem_cons_self a l)])

lemma takeWhile_append_all_false {p : Char → Bool} {l₁ l₂ : List Char}
    (h : ∀ x ∈ l₂, p x = false) :
    (l₁ ++ l₂).takeWhile p = l₁.takeWhile p := by
  rw [List.takeWhile_append]
  split_ifs with hlen
  · have heq : l₁.takeWhile p = l₁ :=
      List.Sublist.eq_of_length (List.takeWhile_sublist p) hlen
    rw [heq, takeWhile_eq_nil_of_all_false h, List.append_nil]
  · rfl

lemma jsSplitWS_cons_ws_nil {c : Char} (hc : isWS c = true) :
    jsSplitWS [c] = [[], []] := by
  rw [jsSplitWS.eq_def]
  simp [hc, jsSplitWS]

lemma jsSplitWS_cons_ws_ws {c d : Char} (rest' : List Char) (hc : isWS c = true)
    (hd : isWS d = true) : jsSplitWS (c :: d :: rest') = jsSplitWS (d :: rest') := by
  rw [jsSplitWS.eq_def]
  simp [hc, hd]

lemma jsSplitWS_cons_ws_content {c d : Char} (rest' : List Char)
    (hc : isWS c = true) (hd : isWS d = false) :
    jsSplitWS (c :: d :: rest') = [] :: jsSplitWS (d :: rest') := by
  rw [jsSplitWS.eq_def]
  simp [hc, hd]

lemma jsSplitWS_cons_content {c : Char} {rest t : List Char} {ts : List (List Char)}
    (hc : isWS c = false) (hsp : jsSplitWS rest = t :: ts) :
    jsSplitWS (c :: rest) = (c :: t) :: ts := by
  rw [jsSplitWS.eq_def]
  simp [hc, hsp]

lemma jsSplitWS_ne_nil (s : List Char) : jsSplitWS s ≠ [] := by
  induction s with
  | nil => simp [jsSplitWS]
  | cons c rest ih =>
    cases hc : isWS c with
    | true =>
      cases rest with
      | nil => rw [jsSplitWS_cons_ws_nil hc]; simp
      | cons d rest' =>
        cases hd : isWS d with
        | true => rw [jsSplitWS_cons_ws_ws rest' hc hd]; exact ih
        | false => rw [jsSplitWS_cons_ws_content rest' hc hd]; simp
    | false =>
      rcases hsp : jsSplitWS rest with _ | ⟨t, ts⟩
      · exact absurd hsp ih
      · rw [jsSplitWS_cons_content hc hsp]; simp

lemma jsSplitWS_all_content {s : List Char} (h : ∀ x ∈ s, isWS x = false) :
    jsSplitWS s = [s] := by
  induction s with
  | nil => rfl
  | cons c rest ih =>
    have hc : isWS c = false := h c (List.mem_cons_self c rest)
    have hr := ih (fun x hx => h x (List.mem_cons_of_mem _ hx))
    rw [jsSplitWS_cons_content hc hr]

lemma jsSplitWS_two_le {s : List Char} (h : ∃ x ∈ s, isWS x = true) :
    2 ≤ (jsSplitWS s).length := by
  induction s with
  | nil => simp at h
  | cons c rest ih =>
    cases hc : isWS c with
    | true =>
      cases rest with
      | nil => rw [jsSplitWS_cons_ws_nil hc]; simp
      | cons d rest' =>
        cases hd : isWS d with
        | true =>
          rw [jsSplitWS_cons_ws_ws rest' hc hd]
          exact ih ⟨d, List.mem_cons_self _ _, hd⟩
        | false =>
          rw [jsSplitWS_cons_ws_content rest' hc hd, List.length_cons]
          have hlen : 1 ≤ (jsSplitWS (d :: rest')).length := by
            rcases hq : jsSplitWS (d :: rest') with _ | ⟨a, l⟩
            · exact absurd hq (jsSplitWS_ne_nil (d :: rest'))
            · simp
          omega
    | false =>
      obtain ⟨x, hx, hxw⟩ := h
      rw [List.mem_cons] at hx
      rcases hx with rfl | hx
      · rw [hc] at hxw
        exact absurd hxw (by simp)
      · have ihh := ih ⟨x, hx, hxw⟩
        rcases hsp : jsSplitWS rest with _ | ⟨t, ts⟩
        · exact absurd hsp (jsSplitWS_ne_nil rest)
        · rw [hsp] at ihh
          rw [jsSplitWS_cons_content hc hsp]
          simpa using ihh

lemma getLastD_irrel {α : Type} {l : List α} (h : l ≠ []) (d₁ d₂ : α) :
    l.getLastD d₁ = l.getLastD d₂ := by
  cases l with
  | nil => exact absurd rfl h
  | cons a l => rw [List.getLastD_cons, List.getLastD_cons]

lemma jsSplitWS_getLastD (s : List Char) :
    (jsSplitWS s).getLastD [] =
      (s.reverse.takeWhile (fun c => !isWS c)).reverse := by
  induction s with
  | nil => rfl
  | cons c rest ih =>
    cases hc : isWS c with
    | true =>
      have hR : ((c :: rest).reverse.takeWhile (fun c => !isWS c)).reverse =
          (rest.reverse.takeWhile (fun c => !isWS c)).reverse := by
        rw [List.reverse_cons, takeWhile_append_all_false]
        intro x hx
        rw [List.mem_singleton] at hx
        subst hx
        simp [hc]
      rw [hR, ← ih]
      cases rest with
      | nil => rw [jsSplitWS_cons_ws_nil hc]; rfl
      | cons d rest' =>
        cases hd : isWS d with
        | true => rw [jsSplitWS_cons_ws_ws rest' hc hd]
        | false =>
          rw [jsSplitWS_cons_ws_content rest' hc hd,
            List.getLastD_cons ([] : List Char) ([] : List Char)
              (jsSplitWS (d :: rest'))]
    | false =>
      rcases hsp : jsSplitWS rest with _ | ⟨t, ts⟩
      · exact absurd hsp (jsSplitWS_ne_nil rest)
      · rw [jsSplitWS_cons_content hc hsp]
        cases ts with
        | nil =>
          by_cases hall : ∀ x ∈ rest, isWS x = false
          · have hone := jsSplitWS_all_content hall
            rw [hsp] at hone
            have ht : t = rest := by injection hone
            subst ht
            have hpassrev : ∀ x ∈ t.reverse, (fun c => !isWS c) x = true := by
              intro x hx
              rw [List.mem_reverse] at hx
              simp [hall x hx]
            rw [List.reverse_cons, List.takeWhile_append_of_pos hpassrev,
              List.takeWhile_cons_of_pos (by simp [hc])]
            simp
          · exfalso
            push_neg at hall
            obtain ⟨x, hx, hxw⟩ := hall
            have hxt : isWS x = true := by
              revert hxw
              cases isWS x <;> simp
            have h2 := jsSplitWS_two_le ⟨x, hx, hxt⟩
            rw [hsp] at h2
            simp at h2
        | cons u us =>
          have hne : (u :: us : List (List Char)) ≠ [] := by simp
          have hL : ((c :: t) :: u :: us).getLastD ([] : List Char) =
              (jsSplitWS rest).getLastD [] := by
            rw [hsp]
            rw [List.getLastD_cons ([] : List Char) (c :: t) (u :: us)]
            rw [List.getLastD_cons ([] : List Char) t (u :: us)]
            exact getLastD_irrel hne _ _
          rw [hL, ih]
          have hws : ∃ x ∈ rest, isWS x = true := by
            by_contra hno
            push_neg at hno
            have hall : ∀ x ∈ rest, isWS x = false := by
              intro x hx
              have hq := hno x hx
              revert hq
              cases isWS x <;> simp
            have hone := jsSplitWS_all_content hall
            rw [hsp] at hone
            have hcon : (u :: us : List (List Char)) = [] := by injection hone
            exact hne hcon
          obtain ⟨x, hx, hxw⟩ := hws
          have h5 : ((c :: rest).reverse.takeWhile (fun c => !isWS c)) =
              rest.reverse.takeWhile (fun c => !isWS c) := by
            rw [List.reverse_cons, List.takeWhile_append]
            split_ifs with hlen
            · exfalso
              have heq : rest.reverse.takeWhile (fun c => !isWS c) = rest.reverse :=
                List.Sublist.eq_of_length (List.takeWhile_sublist _) hlen
              have hmem : x ∈ rest.reverse.takeWhile (fun c => !isWS c) := by
                rw [heq, List.mem_reverse]
                exact hx
              have hxx := List.all_eq_true.mp List.all_takeWhile x hmem
              simp [hxw] at hxx
            · rfl
          rw [h5]

end HelperLemmas

/-- C5 counterexample: contrary to the claim, `isNearRhyme("time","fine")`
is `false` in the code (the pair is already an exact rhyme). -/
theorem C5_counterexample : isNearRhyme "time".toList "fine".toList = false := by
  decide

/-- C5 (amended): `isNearRhyme("time","fine")` returns false — the pair is
classified as an exact rhyme, both rimes being "e", and near-rhyme excludes
exact rhymes — and `isNearRhyme("time","time")` returns false. -/
theorem C5_amended_near_rhyme_examples :
    isNearRhyme "time".toList "fine".toList = false ∧
    isRhyme "time".toList "fine".toList = true ∧
    (getRimeParts "time".toList).rime = ['e'] ∧
    (getRimeParts "fine".toList).rime = ['e'] ∧
    isNearRhyme "time".toList "time".toList = false := by
  decide

/-- C1 counterexample: "btsk" and "tsk" have distinct non-empty normalized
forms and equal endings of length 3, yet `isRhyme` is false, because the
code rejects any pair in which a word lacks a vowel cluster; the ending
fallback therefore does not apply to words without a vowel cluster. -/
theorem C1_counterexample :
    normalizeWord "btsk".toList ≠ [] ∧
    normalizeWord "tsk".toList ≠ [] ∧
    normalizeWord "btsk".toList ≠ normalizeWord "tsk".toList ∧
    (getRimeParts "btsk".toList).ending = (getRimeParts "tsk".toList).ending ∧
    2 ≤ (getRimeParts "btsk".toList).ending.length ∧
    isRhyme "btsk".toList "tsk".toList = false := by
  decide

/-- C4 counterexample: with a break marker at position 1, lines 0 and 1 are
separated by the code even though no break lies strictly between them; a
break position equal to max(i,j) does separate the pair. -/
theorem C4_counterexample :
    inSameSection [1] 0 1 = false ∧ (∀ b ∈ ([1] : List Nat), ¬(0 < b ∧ b < 1)) := by
  decide

/-- C2 counterexample: on the buffer ["cat","cat","bat"] the engine yields
the rhyme groups [[0,2],[1,2]]; line 2 is a member of two groups. -/
theorem C2_counterexample :
    (buildGroups (["cat", "cat", "bat"].map String.toList)).rhymeGroups =
      [[0, 2], [1, 2]] ∧
    ¬ pairwiseDisjoint (buildGroups (["cat", "cat", "bat"].map String.toList)) := by
  decide

/-- C6 counterexample: on the line "x2" the code returns "x2", not the fully
normalized form "x" of the final token; characters outside a-z that are not
in the punctuation set are retained by `getLastWord`. -/
theorem C6_counterexample :
    getLastWord "x2".toList = "x2".toList ∧
    normalizeWord "x2".toList = "x".toList ∧
    getLastWord "x2".toList ≠ normalizeWord "x2".toList := by
  decide

/-- C7: the claim states the code's evident intent, but the source violates
it at one input: the lookup on the special-case object literal traverses
the prototype chain, so any input normalizing to "constructor" makes the
source return the inherited function Object.prototype.constructor — a
truthy non-number — instead of an integer at least 1.  On every other
input the claimed property holds: the result is 0 exactly when the input
normalizes to the empty word and at least 1 otherwise. -/
theorem C7_prototype_chain_bug :
    countSyllablesJS "constructor".toList = JsNumOrFunction.protoConstructorFn ∧
    normalizeWord "constructor".toList ≠ [] ∧
    (∀ word, normalizeWord word ≠ "constructor".toList →
      countSyllablesJS word = JsNumOrFunction.num (countSyllables word)) ∧
    (∀ word, (normalizeWord word = [] → countSyllables word = 0) ∧
      (normalizeWord word ≠ [] → 1 ≤ countSyllables word)) := by
  refine ⟨by decide, by decide, ?_, ?_⟩
  · intro word hwc
    have hnf := normalize_eq_filter_trim word
    unfold countSyllablesJS countSyllables
    by_cases h0 : trim (toLowerStr word) = []
    · rw [if_pos h0, if_pos h0]
    · rw [if_neg h0, if_neg h0]
      by_cases h1 : (trim (toLowerStr word)).filter isLowerAlpha = []
      · rw [if_pos h1, if_pos h1]
      · rw [if_neg h1, if_neg h1]
        by_cases h2 : specialCase ((trim (toLowerStr word)).filter isLowerAlpha) ≠ 0
        · rw [if_pos h2, if_pos h2]
        · rw [if_neg h2, if_neg h2, if_neg (by rw [hnf]; exact hwc)]
  · intro word
    have hnf := normalize_eq_filter_trim word
    have hd : countSyllables word =
        if normalizeWord word = [] then 0
        else if specialCase (normalizeWord word) ≠ 0 then
          specialCase (normalizeWord word)
        else syllableHeuristic (normalizeWord word) := by
      unfold countSyllables
      by_cases h0 : trim (toLowerStr word) = []
      · have hn : normalizeWord word = [] := by rw [← hnf, h0]; rfl
        rw [if_pos h0, if_pos hn]
      · rw [if_neg h0, hnf]
    rw [hd]
    by_cases h1 : normalizeWord word = []
    · simp [h1]
    · rw [if_neg h1]
      refine ⟨fun h => absurd h h1, fun _ => ?_⟩
      by_cases h2 : specialCase (normalizeWord word) ≠ 0
      · rw [if_pos h2]
        omega
      · rw [if_neg h2]
        exact Nat.le_max_left 1 _

/-- C7 witness: the agreement and positivity parts applied at a concrete
word away from the failing input. -/
theorem C7_prototype_chain_bug_witness :
    countSyllablesJS "fire".toList =
      JsNumOrFunction.num (countSyllables "fire".toList) ∧
    1 ≤ countSyllables "fire".toList := by
  constructor
  · exact C7_prototype_chain_bug.2.2.1 "fire".toList (by decide)
  · exact (C7_prototype_chain_bug.2.2.2 "fire".toList).2 (by decide)

/-- C10: structural invariants of `getRimeParts`: the vowel cluster holds
only vowels, the coda only non-vowels, the rime is their concatenation and
a suffix of the normalized word, the ending is the last min(3,length)
characters of the normalized word, and a word with no vowel letter has
empty cluster, coda and rime. -/
theorem C10_rimeParts_invariants (w : List Char) :
    (∀ c ∈ (getRimeParts w).vowelCluster, isVowel c = true) ∧
    (∀ c ∈ (getRimeParts w).coda, isVowel c = false) ∧
    (getRimeParts w).rime = (getRimeParts w).vowelCluster ++ (getRimeParts w).coda ∧
    (getRimeParts w).rime <:+ normalizeWord w ∧
    (getRimeParts w).ending = (normalizeWord w).drop ((normalizeWord w).length - 3) ∧
    (getRimeParts w).ending.length = min 3 (normalizeWord w).length ∧
    ((∀ c ∈ normalizeWord w, isVowel c = false) →
      (getRimeParts w).vowelCluster = [] ∧ (getRimeParts w).coda = [] ∧
      (getRimeParts w).rime = []) := by
  unfold getRimeParts
  by_cases hn : normalizeWord w = []
  · rw [if_pos hn]
    refine ⟨by simp, by simp, rfl, List.nil_suffix, ?_, ?_, fun _ => ⟨rfl, rfl, rfl⟩⟩
    · rw [hn]; rfl
    · rw [hn]; rfl
  · rw [if_neg hn]
    by_cases hc : rimeClusterR (normalizeWord w) = []
    · rw [if_pos hc]
      refine ⟨by simp, by simp, rfl, List.nil_suffix, rfl, ?_, fun _ => ⟨rfl, rfl, rfl⟩⟩
      unfold lastThree
      rw [List.length_drop]
      omega
    · rw [if_neg hc]
      have hsplit1 : rimeCodaR (normalizeWord w) ++
          (normalizeWord w).reverse.dropWhile (fun c => !isVowel c) =
          (normalizeWord w).reverse :=
        List.takeWhile_append_dropWhile _ _
      have hsplit2 : rimeClusterR (normalizeWord w) ++
          ((normalizeWord w).reverse.dropWhile (fun c => !isVowel c)).dropWhile isVowel =
          (normalizeWord w).reverse.dropWhile (fun c => !isVowel c) :=
        List.takeWhile_append_dropWhile _ _
      refine ⟨?_, ?_, rfl, ?_, rfl, ?_, ?_⟩
      · intro c hcm
        rw [List.mem_reverse] at hcm
        exact List.all_eq_true.mp List.all_takeWhile c hcm
      · intro c hcm
        rw [List.mem_reverse] at hcm
        have := List.all_eq_true.mp List.all_takeWhile c hcm
        simpa using this
      · refine ⟨(((normalizeWord w).reverse.dropWhile
          (fun c => !isVowel c)).dropWhile isVowel).reverse, ?_⟩
        have h3 : (rimeCodaR (normalizeWord w) ++ (rimeClusterR (normalizeWord w) ++
            ((normalizeWord w).reverse.dropWhile (fun c => !isVowel c)).dropWhile
              isVowel)).reverse = (normalizeWord w).reverse.reverse := by
          rw [hsplit2, hsplit1]
        rw [List.reverse_reverse] at h3
        simpa [List.reverse_append, List.append_assoc] using h3
      · unfold lastThree
        rw [List.length_drop]
        omega
      · intro hno
        exfalso
        obtain ⟨c, hcm⟩ := List.exists_mem_of_ne_nil _ hc
        have hv : isVowel c = true := List.all_eq_true.mp List.all_takeWhile c hcm
        have hcm2 : c ∈ (normalizeWord w).reverse.dropWhile (fun c => !isVowel c) :=
          (List.takeWhile_sublist _).subset hcm
        have hcm3 : c ∈ (normalizeWord w).reverse :=
          (List.dropWhile_sublist _).subset hcm2
        rw [List.mem_reverse] at hcm3
        rw [hno c hcm3] at hv
        exact Bool.false_ne_true hv

/-- C10 witness: the invariants applied at concrete inputs, including the
no-vowel implication at "tsk". -/
theorem C10_rimeParts_invariants_witness :
    (getRimeParts "light".toList).rime <:+ normalizeWord "light".toList ∧
    (getRimeParts "tsk".toList).rime = [] := by
  constructor
  · exact (C10_rimeParts_invariants "light".toList).2.2.2.1
  · exact ((C10_rimeParts_invariants "tsk".toList).2.2.2.2.2.2 (by decide)).2.2

/-- C9: both classifiers are symmetric in their two arguments. -/
theorem C9_classifier_symmetry (a b : List Char) :
    isRhyme a b = isRhyme b a ∧ isNearRhyme a b = isNearRhyme b a :=
  ⟨isRhyme_symm a b, isNearRhyme_symm a b⟩

/-- C1 (amended): for words with distinct non-empty normalized forms,
`isRhyme(a,b)` is true iff BOTH words have a non-empty vowel cluster and
either the rimes are equal or the endings are equal with length at least 2.
Words lacking a detectable vowel cluster never rhyme: the ending fallback
does not apply to them. -/
theorem C1_amended_rhyme_rule (a b : List Char)
    (h1 : normalizeWord a ≠ []) (h2 : normalizeWord b ≠ [])
    (h3 : normalizeWord a ≠ normalizeWord b) :
    isRhyme a b = true ↔
      ((getRimeParts a).vowelCluster ≠ [] ∧ (getRimeParts b).vowelCluster ≠ [] ∧
       ((getRimeParts a).rime = (getRimeParts b).rime ∨
        ((getRimeParts a).ending = (getRimeParts b).ending ∧
         2 ≤ (getRimeParts a).ending.length))) := by
  rw [isRhyme_eq_true_iff, getRimeParts_normalize, getRimeParts_normalize]
  tauto

/-- C1 witness: the amended rule applied at "cat"/"bat". -/
theorem C1_amended_rhyme_rule_witness : isRhyme "cat".toList "bat".toList = true := by
  have h := C1_amended_rhyme_rule "cat".toList "bat".toList
    (by decide) (by decide) (by decide)
  exact h.mpr (by decide)

/-- C4 (amended): `inSameSection(i,j)` is true iff no break position `b`
satisfies min(i,j) < b ≤ max(i,j): a break at min(i,j) does not separate
the pair, but a break equal to max(i,j) does. -/
theorem C4_amended_section_rule (breaks : List Nat) (i j : Nat) :
    inSameSection breaks i j = true ↔
      ∀ b ∈ breaks, ¬(min i j < b ∧ b ≤ max i j) := by
  unfold inSameSection
  rw [List.all_eq_true]
  constructor
  · intro h b hb
    have hh := h b hb
    simp only [Bool.not_eq_true', decide_eq_false_iff_not] at hh
    omega
  · intro h b hb
    have hh := h b hb
    simp only [Bool.not_eq_true', decide_eq_false_iff_not]
    omega

/-- C2 (amended): every line index is the anchor (first member) of at most
one rhyme group and of at most one near-rhyme group — the anchors of each
list are strictly increasing in creation order — but a line may appear as a
non-anchor member of more than one group. -/
theorem C2_amended_anchor_uniqueness (lines : List (List Char)) :
    (anchors (buildGroups lines).rhymeGroups).Pairwise (· < ·) ∧
    (anchors (buildGroups lines).nearRhymeGroups).Pairwise (· < ·) :=
  ⟨(buildGroups_inv lines).1, (buildGroups_inv lines).2.2.1⟩

/-- C3: any two members of one output group are never separated by a break
marker (no break position lies strictly between them), and on the buffer
["day","way","---","play"] lines 0 and 1 form the single rhyme group while
line 3 belongs to no group. -/
theorem C3_groups_respect_sections :
    (∀ lines g x y b,
      g ∈ (buildGroups lines).rhymeGroups ++ (buildGroups lines).nearRhymeGroups →
      x ∈ g → y ∈ g → b ∈ breakPositions lines → ¬(x < b ∧ b < y)) ∧
    (buildGroups (["day", "way", "---", "play"].map String.toList)).rhymeGroups =
      [[0, 1]] ∧
    (buildGroups (["day", "way", "---", "play"].map String.toList)).nearRhymeGroups =
      [] := by
  refine ⟨?_, by decide, by decide⟩
  intro lines g x y b hg hx hy hb
  have hinv := buildGroups_inv lines
  rw [List.mem_append] at hg
  rcases hg with hg | hg
  · exact groupWF_no_break_between (hinv.2.2.2.2.1 g hg) hx hy hb
  · exact groupWF_no_break_between (hinv.2.2.2.2.2 g hg) hx hy hb

/-- C3 witness: the section property applied to the concrete demo group. -/
theorem C3_groups_respect_sections_witness : ¬(0 < 2 ∧ 2 < 1) :=
  C3_groups_respect_sections.1 (["day", "way", "---", "play"].map String.toList)
    [0, 1] 0 1 2 (by decide) (by decide) (by decide) (by decide)

/-- C8: on a degenerate buffer — every line blank or a break marker, which
covers the empty buffer, the all-blank buffer and the all-break buffer —
the engine produces no rhyme groups, no near-rhyme groups, and every line
has empty syllable and group annotations; all operations are total. -/
theorem C8_degenerate_buffers (lines : List (List Char))
    (h : ∀ l ∈ lines, trim l = [] ∨ trim l = BREAK) :
    (buildGroups lines).rhymeGroups = [] ∧
    (buildGroups lines).nearRhymeGroups = [] ∧
    (∀ l ∈ lines, syllableAnnotation l = none) ∧
    (∀ i, i < lines.length → groupAnnotation lines i = none) := by
  have hskip : ∀ i ∈ List.range lines.length, isSkip (lines.getD i []) = true := by
    intro i hi
    rw [List.mem_range] at hi
    have hmem : lines.getD i [] ∈ lines := by
      rw [List.getD_eq_getElem?_getD, List.getElem?_eq_getElem hi]
      exact List.getElem_mem hi
    rcases h _ hmem with h' | h' <;> unfold isSkip <;> rw [h'] <;> decide
  have hfold : buildGroups lines = ⟨[], []⟩ :=
    foldl_stepGroups_skip lines (lines.map getLastWord) (breakPositions lines)
      (List.range lines.length) ⟨[], []⟩ hskip
  refine ⟨by rw [hfold], by rw [hfold], ?_, ?_⟩
  · intro l hl
    unfold syllableAnnotation
    rcases h l hl with h' | h'
    · rw [h', if_neg (by decide), if_pos rfl]
    · rw [h', if_pos rfl]
  · intro i hi
    unfold groupAnnotation
    rw [if_pos (hskip i (List.mem_range.mpr hi))]

/-- C8 witness: a concrete degenerate buffer consisting of break markers
and blank lines, obtained by splitting the raw buffer on newlines. -/
theorem C8_degenerate_buffers_witness :
    (buildGroups (splitNL "---\n\n --- ".toList)).rhymeGroups = [] ∧
    (buildGroups (splitNL "---\n\n --- ".toList)).nearRhymeGroups = [] := by
  have h := C8_degenerate_buffers (splitNL "---\n\n --- ".toList) (by decide)
  exact ⟨h.1, h.2.1⟩

/-- C6 (amended): `lastWord` returns the empty string when the trimmed line
is empty, and otherwise the lowercased maximal run of non-whitespace
characters at the end of the punctuation-stripped trimmed line; characters
outside a-z that are not in the punctuation set (digits, hyphens, ...) are
retained, not removed. -/
theorem C6_amended_lastWord_rule (line : List Char) :
    getLastWord line =
      toLowerStr (((stripPunct (trim line)).reverse.takeWhile
        (fun c => !isWS c)).reverse) := by
  unfold getLastWord
  by_cases h : trim line = []
  · rw [if_pos h, h]
    rfl
  · rw [if_neg h, jsSplitWS_getLastD]

end Songwrite
